import Mathlib

/-!
Verification of the transaction-funding and signing core of the walrus-cli
wallet client. The definitions are a shallow embedding of src/main.go;
routines that live in external libraries (coin selection, hot signing, JSON
marshalling, URL parsing, pieces of the Go standard library) are modelled
from the specification and marked as such in their doc comments. Currency
values (types.Currency, arbitrary-precision non-negative integers) are
embedded as Nat, and addresses (types.UnlockHash) as Nat as well.
-/

namespace WalrusCLI

/-- SiacoinPrecision from the Sia types package: the number of smallest
units in one whole siacoin, ten to the 24th power. Used by parseCurrency
and by the donation floor in src/main.go. -/
def siacoinPrecision : Nat := 10 ^ 24

/-- UnlockConditions: the spending policy that hashes to an address
(types.UnlockConditions). Public keys are embedded as opaque numbers. -/
structure UnlockConditions where
  timelock : Nat
  publicKeys : List Nat
  signaturesRequired : Nat
deriving DecidableEq, Repr

/-- Modelled from the spec: the opaque hash from unlock conditions to the
address they pay to (UnlockConditions.UnlockHash in the Sia types package,
outside this repository). Embedded as a concrete injective-style encoding;
the claims depend only on this being a deterministic function. -/
def UnlockConditions.unlockHash (uc : UnlockConditions) : Nat :=
  Nat.pair uc.timelock (Nat.pair (uc.publicKeys.foldl Nat.pair 0) uc.signaturesRequired)

/-- ValuedInput (lukechampine.com/us/wallet): a UTXO staged as a candidate
spend for one funding attempt, spec section 3. -/
structure ValuedInput where
  parentID : Nat
  unlockConditions : UnlockConditions
  value : Nat
deriving DecidableEq, Repr

/-- Sum of the values of a list of candidate inputs. -/
def sumValues (l : List ValuedInput) : Nat := (l.map ValuedInput.value).sum

/-- Ordering used to sort candidate inputs before greedy selection: value
descending, ties broken by parent identifier ascending (spec section 4.1
step 1). -/
def inputPrefers (a b : ValuedInput) : Bool :=
  decide (b.value < a.value ∨ (a.value = b.value ∧ a.parentID ≤ b.parentID))

/-- Insertion step of the deterministic sort of candidate inputs. -/
def insertByValue (i : ValuedInput) : List ValuedInput → List ValuedInput
  | [] => [i]
  | j :: rest => if inputPrefers i j then i :: j :: rest else j :: insertByValue i rest

/-- Deterministic insertion sort of candidate inputs by descending value
(spec section 4.1 step 1). -/
def sortByValueDesc (l : List ValuedInput) : List ValuedInput :=
  l.foldr insertByValue []

/-- Greedy accumulation loop of coin selection (spec section 4.1 step 2):
walk the sorted candidates, recomputing the fee for the current input count
after each addition, and stop as soon as the accumulated value covers
target plus fee; fail when the candidates are exhausted. -/
def greedyAccumulate (sizeFn : Nat → Nat → Nat) (target feePerByte outEst : Nat) :
    List ValuedInput → List ValuedInput → Nat → Option (List ValuedInput × Nat)
  | [], chosen, acc =>
    if target + feePerByte * sizeFn chosen.length outEst ≤ acc then some (chosen, acc)
    else none
  | i :: rest, chosen, acc =>
    if target + feePerByte * sizeFn chosen.length outEst ≤ acc then some (chosen, acc)
    else greedyAccumulate sizeFn target feePerByte outEst rest (chosen ++ [i]) (acc + i.value)

/-- Modelled from the spec: wallet.FundTransaction (lukechampine.com/us/wallet,
outside this repository), following spec section 4.1. The transaction size
is an abstract function of the input and output counts; outEst is the
output-count estimate (recipients plus possible donation). After the greedy
pass, a nonzero change triggers the fixed second pricing pass that assumes
one extra output; the spec leaves the case where the repriced requirement
exceeds the accumulated value open, and the model surfaces it as
InsufficientFunds (returning none). -/
def fundTransaction (sizeFn : Nat → Nat → Nat) (outEst : Nat)
    (target feePerByte : Nat) (available : List ValuedInput) :
    Option (List ValuedInput × Nat × Nat) :=
  match greedyAccumulate sizeFn target feePerByte outEst (sortByValueDesc available) [] 0 with
  | none => none
  | some (used, acc) =>
    if acc - (target + feePerByte * sizeFn used.length outEst) = 0 then
      some (used, feePerByte * sizeFn used.length outEst, 0)
    else if target + feePerByte * sizeFn used.length (outEst + 1) ≤ acc then
      some (used, feePerByte * sizeFn used.length (outEst + 1),
        acc - (target + feePerByte * sizeFn used.length (outEst + 1)))
    else none

/-- Fund-with-fallback flow of the txn command (src/main.go lines 405 to
414): attempt funding at paymentTotal plus donation; on failure retry at
paymentTotal alone, reinterpreting the change of the second attempt as the
donation and committing zero change; fail only when both attempts fail.
The funding routine itself is the function argument, matching the two calls
to wallet.FundTransaction. The result quadruple is (used, fee, donation,
change) as committed by the flow. -/
def fundWithFallback (fund : Nat → Option (List ValuedInput × Nat × Nat))
    (paymentTotal donation : Nat) :
    Option (List ValuedInput × Nat × Nat × Nat) :=
  match fund (paymentTotal + donation) with
  | some (used, fee, change) => some (used, fee, donation, change)
  | none =>
    match fund paymentTotal with
    | some (used, fee, change) => some (used, fee, change, 0)
    | none => none

/-- Donation computation of the txn command (src/main.go lines 377 to 386):
zero when no donation address was discovered; otherwise one percent of the
payment total (Currency.MulRat with ratio 1/100, whose big.Int division is
floor division on nonnegative operands, embedded as Nat division), raised
to the fixed floor of ten siacoins. -/
def computeDonation (recipSum : Nat) (donationFound : Bool) : Nat :=
  if donationFound then
    if recipSum * 1 / 100 < siacoinPrecision * 10 then siacoinPrecision * 10
    else recipSum * 1 / 100
  else 0

/-- SiacoinInput (types.SiacoinInput): parent output identifier plus the
unlock conditions that spend it. -/
structure SiacoinInput where
  parentID : Nat
  unlockConditions : UnlockConditions
deriving DecidableEq, Repr

/-- SiacoinOutput (types.SiacoinOutput): recipient address plus value. -/
structure SiacoinOutput where
  unlockHash : Nat
  value : Nat
deriving DecidableEq, Repr

/-- TransactionSignature (types.TransactionSignature): a signature slot,
with empty signature bytes until the signer responds (spec section 3). -/
structure TransactionSignature where
  parentID : Nat
  publicKeyIndex : Nat
  signature : List Nat
deriving DecidableEq, Repr

/-- The transaction draft (types.Transaction restricted to the fields the
client touches): inputs, outputs, miner fees and signatures. -/
structure Transaction where
  siacoinInputs : List SiacoinInput
  siacoinOutputs : List SiacoinOutput
  minerFees : List Nat
  transactionSignatures : List TransactionSignature
deriving DecidableEq, Repr

/-- Modelled from the spec: wallet.StandardTransactionSignature
(lukechampine.com/us/wallet, outside this repository) builds a fresh
whole-transaction signature slot for the given parent identifier with empty
signature bytes (spec section 3, signature slot). -/
def standardTransactionSignature (parentID : Nat) : TransactionSignature :=
  { parentID := parentID, publicKeyIndex := 0, signature := [] }

/-- Slot-allocation loop of the cold signing flow (src/main.go lines 684 to
697): for each input whose spending address is owned by the wallet, append
a fresh signature slot to the transaction and record the pair of the new
slot index (the length of the signature list before the append) and the key
index of the address, mirroring sigMap. -/
def coldAllocateGo (owned : List Nat) (keyIndexOf : Nat → Nat) :
    List SiacoinInput → Transaction → List (Nat × Nat) → Transaction × List (Nat × Nat)
  | [], t, m => (t, m)
  | inp :: rest, t, m =>
    if inp.unlockConditions.unlockHash ∈ owned then
      coldAllocateGo owned keyIndexOf rest
        { t with transactionSignatures :=
            t.transactionSignatures ++ [standardTransactionSignature inp.parentID] }
        (m ++ [(t.transactionSignatures.length, keyIndexOf inp.unlockConditions.unlockHash)])
    else coldAllocateGo owned keyIndexOf rest t m

/-- Slot allocation of signFlowCold, starting from the transaction as read
and an empty slot map. -/
def coldAllocate (owned : List Nat) (keyIndexOf : Nat → Nat) (txn : Transaction) :
    Transaction × List (Nat × Nat) :=
  coldAllocateGo owned keyIndexOf txn.siacoinInputs txn []

/-- Replaces the element at one position of a list, leaving every other
position unchanged (embedding of an in-place slice update). -/
def modifyAt {α : Type} (f : α → α) : Nat → List α → List α
  | _, [] => []
  | 0, x :: xs => f x :: xs
  | n + 1, x :: xs => x :: modifyAt f n xs

/-- Installs signature bytes into the slot at the given signature index
(src/main.go line 717). -/
def setSignature (t : Transaction) (sigIndex : Nat) (sig : List Nat) : Transaction :=
  { t with transactionSignatures :=
      modifyAt (fun s => { s with signature := sig }) sigIndex t.transactionSignatures }

/-- Device signing loop of signFlowCold (src/main.go lines 713 to 719): for
each enumerated slot, request one signature from the device; a device error
or user rejection (signer returning none) hits check(), which aborts the
whole operation, modelled by returning none. -/
def coldSignLoop (signer : Transaction → Nat → Nat → Option (List Nat)) :
    List (Nat × Nat) → Transaction → Option Transaction
  | [], t => some t
  | (sigIndex, keyIndex) :: rest, t =>
    match signer t sigIndex keyIndex with
    | none => none
    | some sig => coldSignLoop signer rest (setSignature t sigIndex sig)

/-- The sequence of per-slot signature requests the device signing loop
issues, in order, including the request on which the signer fails. -/
def coldIssuedRequests (signer : Transaction → Nat → Nat → Option (List Nat)) :
    List (Nat × Nat) → Transaction → List (Nat × Nat)
  | [], _ => []
  | (sigIndex, keyIndex) :: rest, t =>
    match signer t sigIndex keyIndex with
    | none => [(sigIndex, keyIndex)]
    | some sig =>
      (sigIndex, keyIndex) :: coldIssuedRequests signer rest (setSignature t sigIndex sig)

/-- Outcome of a signing flow: the distinguished non-error nothing-to-sign
outcome, success with the signed transaction, or a fatal abort. -/
inductive SignOutcome where
  | nothingToSign (txn : Transaction)
  | signed (txn : Transaction)
  | aborted
deriving DecidableEq, Repr

/-- Cold (device) signing flow (src/main.go lines 676 to 721). owned is the
address list fetched from the server, keyIndexOf the per-address key index
lookup, enum the order in which the Go runtime enumerates the sigMap map
(passed explicitly because Go map iteration order is unspecified), and
signer models nanos.SignTxn, returning none on device failure or user
rejection, which check() turns into a process abort. -/
def signFlowCold (owned : List Nat) (keyIndexOf : Nat → Nat)
    (enum : List (Nat × Nat)) (signer : Transaction → Nat → Nat → Option (List Nat))
    (txn : Transaction) : SignOutcome :=
  if (coldAllocate owned keyIndexOf txn).2.length = 0 then
    .nothingToSign (coldAllocate owned keyIndexOf txn).1
  else
    match coldSignLoop signer enum (coldAllocate owned keyIndexOf txn).1 with
    | none => .aborted
    | some t2 => .signed t2

/-- Modelled from the spec: ProtoWallet.SignTransaction
(lukechampine.com/us/wallet, outside this repository). Per spec section
4.5, it allocates one signature slot per wallet-owned input and fills it
with a locally computed seed signature; inputs that are not owned are left
unsigned and nothing else in the transaction changes. seedSign models the
local signature computation from the parent identifier. -/
def hotSignStep (owned : List Nat) (seedSign : Nat → List Nat)
    (t : Transaction) (inp : SiacoinInput) : Transaction :=
  if inp.unlockConditions.unlockHash ∈ owned then
    { t with transactionSignatures := t.transactionSignatures ++
        [{ standardTransactionSignature inp.parentID with
            signature := seedSign inp.parentID }] }
  else t

/-- Modelled from the spec: the fold applying hotSignStep to every input of
the draft, one slot per owned input. -/
def hotSignTransaction (owned : List Nat) (seedSign : Nat → List Nat)
    (txn : Transaction) : Transaction :=
  txn.siacoinInputs.foldl (hotSignStep owned seedSign) txn

/-- Hot (seed) signing flow (src/main.go lines 723 to 744): sign with the
seed wallet, then compare the signature count before and after; an
unchanged count is reported as the distinguished nothing-to-sign outcome. -/
def signFlowHot (owned : List Nat) (seedSign : Nat → List Nat)
    (txn : Transaction) : SignOutcome :=
  if (hotSignTransaction owned seedSign txn).transactionSignatures.length =
      txn.transactionSignatures.length then
    .nothingToSign (hotSignTransaction owned seedSign txn)
  else .signed (hotSignTransaction owned seedSign txn)

/-- Externally visible effects of a command invocation. -/
inductive Effect where
  | wroteFile (t : Transaction)
  | broadcasted (t : Transaction)
deriving DecidableEq, Repr

/-- Result of a command invocation: normal completion with its effects, or
a fatal process abort (log.Fatalf inside check) with the effects performed
before the abort. -/
inductive CmdResult where
  | done (effects : List Effect)
  | fatal (effects : List Effect)
deriving DecidableEq, Repr

/-- Effects recorded by a command result. -/
def CmdResult.effects : CmdResult → List Effect
  | .done l => l
  | .fatal l => l

/-- Sign command flow with the device signer (src/main.go lines 574 to
597): sign, then broadcast or write the signed transaction file. check()
calls log.Fatalf, so a device failure or user rejection inside the signing
loop terminates the process before any write or broadcast happens. -/
def signCmdCold (broadcastFlag : Bool) (owned : List Nat) (keyIndexOf : Nat → Nat)
    (enum : List (Nat × Nat)) (signer : Transaction → Nat → Nat → Option (List Nat))
    (txn : Transaction) : CmdResult :=
  match signFlowCold owned keyIndexOf enum signer txn with
  | .aborted => .fatal []
  | .nothingToSign t =>
    if broadcastFlag then .done [.broadcasted t] else .done [.wroteFile t]
  | .signed t =>
    if broadcastFlag then .done [.broadcasted t] else .done [.wroteFile t]

theorem sumValues_nil : sumValues [] = 0 := rfl

theorem sumValues_append_single (l : List ValuedInput) (i : ValuedInput) :
    sumValues (l ++ [i]) = sumValues l + i.value := by
  simp [sumValues]

theorem greedyAccumulate_spec (sizeFn : Nat → Nat → Nat) (target feePerByte outEst : Nat) :
    ∀ (rem chosen : List ValuedInput) (acc : Nat), acc = sumValues chosen →
      ∀ used accF,
        greedyAccumulate sizeFn target feePerByte outEst rem chosen acc = some (used, accF) →
        accF = sumValues used ∧ target + feePerByte * sizeFn used.length outEst ≤ accF := by
  intro rem
  induction rem with
  | nil =>
    intro chosen acc hacc used accF h
    simp only [greedyAccumulate] at h
    split at h
    · cases h; exact ⟨hacc, by assumption⟩
    · cases h
  | cons i rest ih =>
    intro chosen acc hacc used accF h
    simp only [greedyAccumulate] at h
    split at h
    · cases h; exact ⟨hacc, by assumption⟩
    · exact ih (chosen ++ [i]) (acc + i.value)
        (by rw [sumValues_append_single, hacc]) used accF h

/-- C1: for every available input set, target value, fee-per-byte, size
function and output estimate for which the modelled funding call succeeds,
the sum of the selected input values equals targetValue + fee + change
exactly; change is a Nat and hence nonnegative. -/
theorem fundTransaction_sum_invariant (sizeFn : Nat → Nat → Nat) (outEst : Nat)
    (target feePerByte : Nat) (available used : List ValuedInput)
    (fee change : Nat)
    (h : fundTransaction sizeFn outEst target feePerByte available = some (used, fee, change)) :
    sumValues used = target + fee + change := by
  unfold fundTransaction at h
  cases hg : greedyAccumulate sizeFn target feePerByte outEst (sortByValueDesc available) [] 0 with
  | none => rw [hg] at h; cases h
  | some p =>
    obtain ⟨u, acc⟩ := p
    rw [hg] at h
    obtain ⟨hsum, hle⟩ :=
      greedyAccumulate_spec sizeFn target feePerByte outEst (sortByValueDesc available) [] 0
        rfl u acc hg
    simp only at h
    split at h
    · rename_i hzero
      cases h
      omega
    · rename_i hnz
      split at h
      · rename_i hle2
        cases h
        omega
      · cases h

/-- Closed witness for C1: a concrete size function, target, fee rate and
input set on which the funding call succeeds and the sum invariant holds. -/
theorem fundTransaction_sum_invariant_witness :
    fundTransaction (fun ins outs => 10 + ins + outs) 1 100 1
        [⟨1, ⟨0, [], 1⟩, 150⟩] = some ([⟨1, ⟨0, [], 1⟩, 150⟩], 13, 37) ∧
      sumValues [⟨1, ⟨0, [], 1⟩, 150⟩] = 100 + 13 + 37 :=
  ⟨by decide, fundTransaction_sum_invariant (fun ins outs => 10 + ins + outs) 1 100 1
    [⟨1, ⟨0, [], 1⟩, 150⟩] [⟨1, ⟨0, [], 1⟩, 150⟩] 13 37 (by decide)⟩

/-- C2: in the txn flow, whenever funding at paymentTotal plus donation
fails but funding at paymentTotal alone succeeds, the committed donation
equals the change returned by the second funding attempt and the committed
change is zero; the flow fails (surfacing insufficient funds) exactly when
both attempts fail. -/
theorem fundWithFallback_donation (fund : Nat → Option (List ValuedInput × Nat × Nat))
    (paymentTotal donation : Nat) (used : List ValuedInput) (fee change : Nat) :
    (fund (paymentTotal + donation) = none →
      fund paymentTotal = some (used, fee, change) →
      fundWithFallback fund paymentTotal donation = some (used, fee, change, 0)) ∧
    (fundWithFallback fund paymentTotal donation = none ↔
      fund (paymentTotal + donation) = none ∧ fund paymentTotal = none) := by
  constructor
  · intro h1 h2
    simp [fundWithFallback, h1, h2]
  · unfold fundWithFallback
    cases h1 : fund (paymentTotal + donation) with
    | some p =>
      obtain ⟨u, f, c⟩ := p
      simp [h1]
    | none =>
      cases h2 : fund paymentTotal with
      | some p =>
        obtain ⟨u, f, c⟩ := p
        simp [h2]
      | none => simp [h2]

/-- Closed witness for C2: a concrete funding routine that fails at the
total with donation but succeeds at the payment total alone; the fallback
commits the change of the second attempt as the donation and zero change. -/
theorem fundWithFallback_donation_witness :
    fundWithFallback (fun t => if t ≤ 5 then some ([], 1, 2) else none) 3 10 =
      some ([], 1, 2, 0) :=
  (fundWithFallback_donation (fun t => if t ≤ 5 then some ([], 1, 2) else none)
    3 10 [] 1 2).1 (by decide) (by decide)

/-- C5: for every payment total, the computed donation is zero when no
donation address is discovered, and otherwise equals the maximum of one
percent of the payment total (Nat ratio multiplication, floor) and the
fixed floor of ten whole siacoins in the smallest-unit representation. -/
theorem computeDonation_spec (recipSum : Nat) :
    computeDonation recipSum false = 0 ∧
    computeDonation recipSum true = max (recipSum * 1 / 100) (siacoinPrecision * 10) := by
  refine ⟨rfl, ?_⟩
  simp only [computeDonation, if_true]
  rcases Nat.lt_or_ge (recipSum * 1 / 100) (siacoinPrecision * 10) with hlt | hge
  · rw [if_pos hlt, Nat.max_eq_right (Nat.le_of_lt hlt)]
  · rw [if_neg (by omega), Nat.max_eq_left hge]

theorem coldAllocateGo_no_owned (owned : List Nat) (keyIndexOf : Nat → Nat) :
    ∀ (inputs : List SiacoinInput) (t : Transaction) (m : List (Nat × Nat)),
      (∀ inp ∈ inputs, inp.unlockConditions.unlockHash ∉ owned) →
      coldAllocateGo owned keyIndexOf inputs t m = (t, m) := by
  intro inputs
  induction inputs with
  | nil => intro t m _; rfl
  | cons inp rest ih =>
    intro t m h
    simp only [coldAllocateGo]
    rw [if_neg (h inp (by simp))]
    exact ih t m (fun i hi => h i (by simp [hi]))

theorem hotSign_foldl_no_owned (owned : List Nat) (seedSign : Nat → List Nat) :
    ∀ (inputs : List SiacoinInput) (t : Transaction),
      (∀ inp ∈ inputs, inp.unlockConditions.unlockHash ∉ owned) →
      inputs.foldl (hotSignStep owned seedSign) t = t := by
  intro inputs
  induction inputs with
  | nil => intro t _; rfl
  | cons inp rest ih =>
    intro t h
    rw [List.foldl_cons]
    rw [show hotSignStep owned seedSign t inp = t from by
      simp only [hotSignStep]; rw [if_neg (h inp (by simp))]]
    exact ih t (fun i hi => h i (by simp [hi]))

/-- C4: for every transaction none of whose inputs spends a wallet-owned
address, both the cold and the hot signing flows return the distinguished
non-error nothing-to-sign outcome carrying the unmodified transaction: no
signature slots are added and the inputs, outputs and fees are unchanged. -/
theorem signing_nothing_to_sign (owned : List Nat) (keyIndexOf : Nat → Nat)
    (enum : List (Nat × Nat)) (signer : Transaction → Nat → Nat → Option (List Nat))
    (seedSign : Nat → List Nat) (txn : Transaction)
    (h : ∀ inp ∈ txn.siacoinInputs, inp.unlockConditions.unlockHash ∉ owned) :
    signFlowCold owned keyIndexOf enum signer txn = .nothingToSign txn ∧
    signFlowHot owned seedSign txn = .nothingToSign txn := by
  have hca : coldAllocate owned keyIndexOf txn = (txn, []) :=
    coldAllocateGo_no_owned owned keyIndexOf txn.siacoinInputs txn [] h
  have hht : hotSignTransaction owned seedSign txn = txn :=
    hotSign_foldl_no_owned owned seedSign txn.siacoinInputs txn h
  constructor
  · simp [signFlowCold, hca]
  · simp [signFlowHot, hht]

/-- Closed witness for C4: a concrete transaction spending one input whose
address is not among the wallet addresses; both flows report nothing to
sign and return the transaction unchanged. -/
theorem signing_nothing_to_sign_witness :
    signFlowCold [] (fun _ => 0) [] (fun _ _ _ => none)
        { siacoinInputs := [⟨5, ⟨0, [], 1⟩⟩], siacoinOutputs := [],
          minerFees := [], transactionSignatures := [] } =
      .nothingToSign
        { siacoinInputs := [⟨5, ⟨0, [], 1⟩⟩], siacoinOutputs := [],
          minerFees := [], transactionSignatures := [] } ∧
    signFlowHot [] (fun _ => [])
        { siacoinInputs := [⟨5, ⟨0, [], 1⟩⟩], siacoinOutputs := [],
          minerFees := [], transactionSignatures := [] } =
      .nothingToSign
        { siacoinInputs := [⟨5, ⟨0, [], 1⟩⟩], siacoinOutputs := [],
          minerFees := [], transactionSignatures := [] } :=
  signing_nothing_to_sign [] (fun _ => 0) [] (fun _ _ _ => none) (fun _ => [])
    { siacoinInputs := [⟨5, ⟨0, [], 1⟩⟩], siacoinOutputs := [],
      minerFees := [], transactionSignatures := [] } (by decide)

/-- C6: whenever the device signer fails or the user cancels on a slot
during a cold signing session with at least one allocated slot, the whole
sign command aborts fatally: no transaction is written to disk or
broadcast, and no result is returned as success. -/
theorem signing_failure_aborts (broadcastFlag : Bool) (owned : List Nat)
    (keyIndexOf : Nat → Nat) (enum : List (Nat × Nat))
    (signer : Transaction → Nat → Nat → Option (List Nat)) (txn : Transaction)
    (hslots : (coldAllocate owned keyIndexOf txn).2.length ≠ 0)
    (hfail : coldSignLoop signer enum (coldAllocate owned keyIndexOf txn).1 = none) :
    signCmdCold broadcastFlag owned keyIndexOf enum signer txn = .fatal [] ∧
    (signCmdCold broadcastFlag owned keyIndexOf enum signer txn).effects = [] ∧
    ∀ l, signCmdCold broadcastFlag owned keyIndexOf enum signer txn ≠ .done l := by
  have h1 : signFlowCold owned keyIndexOf enum signer txn = .aborted := by
    simp [signFlowCold, hslots, hfail]
  refine ⟨?_, ?_, ?_⟩ <;> simp [signCmdCold, h1, CmdResult.effects]

/-- Closed witness for C6: a concrete transaction with one wallet-owned
input and a signer that always fails; the sign command aborts fatally with
no effects. -/
theorem signing_failure_aborts_witness :
    signCmdCold true [UnlockConditions.unlockHash ⟨0, [], 1⟩] (fun _ => 0) [(0, 0)]
        (fun _ _ _ => none)
        { siacoinInputs := [⟨5, ⟨0, [], 1⟩⟩], siacoinOutputs := [],
          minerFees := [], transactionSignatures := [] } = .fatal [] ∧
    (signCmdCold true [UnlockConditions.unlockHash ⟨0, [], 1⟩] (fun _ => 0) [(0, 0)]
        (fun _ _ _ => none)
        { siacoinInputs := [⟨5, ⟨0, [], 1⟩⟩], siacoinOutputs := [],
          minerFees := [], transactionSignatures := [] }).effects = [] ∧
    ∀ l, signCmdCold true [UnlockConditions.unlockHash ⟨0, [], 1⟩] (fun _ => 0) [(0, 0)]
        (fun _ _ _ => none)
        { siacoinInputs := [⟨5, ⟨0, [], 1⟩⟩], siacoinOutputs := [],
          minerFees := [], transactionSignatures := [] } ≠ .done l :=
  signing_failure_aborts true [UnlockConditions.unlockHash ⟨0, [], 1⟩] (fun _ => 0)
    [(0, 0)] (fun _ _ _ => none)
    { siacoinInputs := [⟨5, ⟨0, [], 1⟩⟩], siacoinOutputs := [],
      minerFees := [], transactionSignatures := [] } (by decide) (by decide)

/-- C3 counterexample: a transaction with two wallet-owned inputs allocates
the slot map [(0, 0), (1, 0)]; the enumeration [(1, 0), (0, 0)] is a
permutation of that slot map, hence a possible Go map iteration order, the
signing loop under it issues its per-slot requests exactly in that order,
and that order is not increasing in the slot (input) index. -/
theorem coldSigning_order_counterexample :
    ([((1 : Nat), (0 : Nat)), (0, 0)]).Perm
        (coldAllocate [UnlockConditions.unlockHash ⟨0, [], 1⟩,
            UnlockConditions.unlockHash ⟨1, [], 1⟩] (fun _ => 0)
          { siacoinInputs := [⟨5, ⟨0, [], 1⟩⟩, ⟨7, ⟨1, [], 1⟩⟩],
            siacoinOutputs := [], minerFees := [],
            transactionSignatures := [] }).2 ∧
    coldIssuedRequests (fun _ i k => some [i + k]) [(1, 0), (0, 0)]
        (coldAllocate [UnlockConditions.unlockHash ⟨0, [], 1⟩,
            UnlockConditions.unlockHash ⟨1, [], 1⟩] (fun _ => 0)
          { siacoinInputs := [⟨5, ⟨0, [], 1⟩⟩, ⟨7, ⟨1, [], 1⟩⟩],
            siacoinOutputs := [], minerFees := [],
            transactionSignatures := [] }).1 = [(1, 0), (0, 0)] ∧
    ¬ List.Pairwise (· < ·) ([((1 : Nat), (0 : Nat)), (0, 0)].map Prod.fst) := by
  decide

theorem modifyAt_length {α : Type} (f : α → α) :
    ∀ (n : Nat) (l : List α), (modifyAt f n l).length = l.length := by
  intro n l
  induction l generalizing n with
  | nil => cases n <;> rfl
  | cons x xs ih => cases n with
    | zero => rfl
    | succ m => simp [modifyAt, ih]

theorem modifyAt_getElem_self {α : Type} (f : α → α) :
    ∀ (n : Nat) (l : List α), (modifyAt f n l)[n]? = (l[n]?).map f := by
  intro n l
  induction l generalizing n with
  | nil => cases n <;> rfl
  | cons x xs ih => cases n with
    | zero => simp [modifyAt]
    | succ m => simp [modifyAt, ih]

theorem modifyAt_getElem_ne {α : Type} (f : α → α) :
    ∀ (n m : Nat) (l : List α), n ≠ m → (modifyAt f n l)[m]? = l[m]? := by
  intro n m l
  induction l generalizing n m with
  | nil => intro _; cases n <;> rfl
  | cons x xs ih =>
    intro hne
    cases n with
    | zero =>
      cases m with
      | zero => exact absurd rfl hne
      | succ m2 => rfl
    | succ n2 =>
      cases m with
      | zero => simp [modifyAt]
      | succ m2 => simp [modifyAt, ih n2 m2 (fun h => hne (by rw [h]))]

theorem setSignature_length (t : Transaction) (i : Nat) (s : List Nat) :
    (setSignature t i s).transactionSignatures.length =
      t.transactionSignatures.length := by
  simp [setSignature, modifyAt_length]

theorem coldSignLoop_total (f : Nat → Nat → List Nat) :
    ∀ (enum : List (Nat × Nat)) (t : Transaction),
      coldSignLoop (fun _ i k => some (f i k)) enum t =
        some (enum.foldl (fun t p => setSignature t p.1 (f p.1 p.2)) t) := by
  intro enum
  induction enum with
  | nil => intro t; rfl
  | cons p rest ih =>
    intro t
    obtain ⟨i, k⟩ := p
    simp [coldSignLoop, ih]

theorem coldIssuedRequests_total (f : Nat → Nat → List Nat) :
    ∀ (enum : List (Nat × Nat)) (t : Transaction),
      coldIssuedRequests (fun _ i k => some (f i k)) enum t = enum := by
  intro enum
  induction enum with
  | nil => intro t; rfl
  | cons p rest ih =>
    intro t
    obtain ⟨i, k⟩ := p
    simp [coldIssuedRequests, ih]

theorem foldl_setSignature_other (f : Nat → Nat → List Nat) :
    ∀ (enum : List (Nat × Nat)) (t : Transaction) (j : Nat),
      j ∉ enum.map Prod.fst →
      ((enum.foldl (fun t p => setSignature t p.1 (f p.1 p.2)) t).transactionSignatures)[j]? =
        (t.transactionSignatures)[j]? := by
  intro enum
  induction enum with
  | nil => intro t j _; rfl
  | cons p rest ih =>
    intro t j hj
    obtain ⟨i, k⟩ := p
    simp only [List.map_cons, List.mem_cons] at hj
    push_neg at hj
    rw [List.foldl_cons]
    rw [ih _ j hj.2]
    simp only [setSignature]
    exact modifyAt_getElem_ne _ i j _ hj.1.symm

theorem foldl_setSignature_get (f : Nat → Nat → List Nat) :
    ∀ (enum : List (Nat × Nat)) (t : Transaction) (j k : Nat),
      (j, k) ∈ enum → (enum.map Prod.fst).Nodup →
      j < t.transactionSignatures.length →
      (((enum.foldl (fun t p => setSignature t p.1 (f p.1 p.2)) t).transactionSignatures)[j]?).map
          TransactionSignature.signature = some (f j k) := by
  intro enum
  induction enum with
  | nil => intro t j k hmem _ _; cases hmem
  | cons p rest ih =>
    intro t j k hmem hnodup hlt
    obtain ⟨i, k1⟩ := p
    simp only [List.map_cons, List.nodup_cons] at hnodup
    rw [List.foldl_cons]
    rcases List.mem_cons.mp hmem with heq | hrest
    · injection heq with hji hkk
      subst hji
      subst hkk
      rw [foldl_setSignature_other f rest _ j hnodup.1]
      simp only [setSignature]
      rw [modifyAt_getElem_self]
      rw [List.getElem?_eq_getElem hlt]
      simp
    · exact ih _ j k hrest hnodup.2 (by rw [setSignature_length]; exact hlt)

theorem coldAllocateGo_invariant (owned : List Nat) (keyIndexOf : Nat → Nat) :
    ∀ (inputs : List SiacoinInput) (t : Transaction) (m : List (Nat × Nat)),
      (m.map Prod.fst).Pairwise (· < ·) →
      (∀ p ∈ m, p.1 < t.transactionSignatures.length) →
      ((coldAllocateGo owned keyIndexOf inputs t m).2.map Prod.fst).Pairwise (· < ·) ∧
      ∀ p ∈ (coldAllocateGo owned keyIndexOf inputs t m).2,
        p.1 < (coldAllocateGo owned keyIndexOf inputs t m).1.transactionSignatures.length := by
  intro inputs
  induction inputs with
  | nil => intro t m h1 h2; exact ⟨h1, h2⟩
  | cons inp rest ih =>
    intro t m h1 h2
    simp only [coldAllocateGo]
    by_cases hmem : inp.unlockConditions.unlockHash ∈ owned
    · rw [if_pos hmem]
      apply ih
      · rw [List.map_append, List.pairwise_append]
        refine ⟨h1, by simp, ?_⟩
        intro a ha b hb
        simp only [List.map_cons, List.map_nil, List.mem_singleton] at hb
        subst hb
        obtain ⟨p, hp, rfl⟩ := List.mem_map.mp ha
        exact h2 p hp
      · intro p hp
        rcases List.mem_append.mp hp with h | h
        · have := h2 p h
          simp only [List.length_append, List.length_cons, List.length_nil]
          omega
        · simp only [List.mem_singleton] at h
          subst h
          simp
    · rw [if_neg hmem]
      exact ih t m h1 h2

/-- C3 amended: during cold signing, the per-slot signature requests are
issued in the enumeration order the Go runtime produces for the sigMap map,
which may be any permutation of the allocated slots: exactly one request
per slot is issued (the issued sequence is that enumeration), the loop
completes, and each signature lands in its own slot regardless of the
enumeration order; increasing slot-index order itself is not guaranteed. -/
theorem coldSigning_requests_per_slot (owned : List Nat) (keyIndexOf : Nat → Nat)
    (txn : Transaction) (enum : List (Nat × Nat)) (f : Nat → Nat → List Nat)
    (hperm : enum.Perm (coldAllocate owned keyIndexOf txn).2) :
    coldIssuedRequests (fun _ i k => some (f i k)) enum
        (coldAllocate owned keyIndexOf txn).1 = enum ∧
    ∃ t2,
      coldSignLoop (fun _ i k => some (f i k)) enum
          (coldAllocate owned keyIndexOf txn).1 = some t2 ∧
      ∀ p ∈ (coldAllocate owned keyIndexOf txn).2,
        ((t2.transactionSignatures)[p.1]?).map TransactionSignature.signature =
          some (f p.1 p.2) := by
  obtain ⟨hpair, hbound⟩ := coldAllocateGo_invariant owned keyIndexOf
    txn.siacoinInputs txn [] (by simp) (by simp)
  refine ⟨coldIssuedRequests_total f enum _, ?_⟩
  refine ⟨_, coldSignLoop_total f enum _, ?_⟩
  intro p hp
  obtain ⟨j, k⟩ := p
  have hnodupSig : ((coldAllocate owned keyIndexOf txn).2.map Prod.fst).Nodup :=
    hpair.imp Nat.ne_of_lt
  have hnodup : (enum.map Prod.fst).Nodup :=
    ((hperm.map Prod.fst).nodup_iff).mpr hnodupSig
  exact foldl_setSignature_get f enum _ j k (hperm.mem_iff.mpr hp) hnodup
    (hbound (j, k) hp)

/-- Closed witness for the amended C3: the concrete two-slot transaction
with the decreasing enumeration; requests follow the enumeration and both
slots receive their own signatures. -/
theorem coldSigning_requests_per_slot_witness :
    coldIssuedRequests (fun _ i k => some [i + k]) [(1, 0), (0, 0)]
        (coldAllocate [UnlockConditions.unlockHash ⟨0, [], 1⟩,
            UnlockConditions.unlockHash ⟨1, [], 1⟩] (fun _ => 0)
          { siacoinInputs := [⟨5, ⟨0, [], 1⟩⟩, ⟨7, ⟨1, [], 1⟩⟩],
            siacoinOutputs := [], minerFees := [],
            transactionSignatures := [] }).1 = [(1, 0), (0, 0)] ∧
    ∃ t2,
      coldSignLoop (fun _ i k => some [i + k]) [(1, 0), (0, 0)]
          (coldAllocate [UnlockConditions.unlockHash ⟨0, [], 1⟩,
              UnlockConditions.unlockHash ⟨1, [], 1⟩] (fun _ => 0)
            { siacoinInputs := [⟨5, ⟨0, [], 1⟩⟩, ⟨7, ⟨1, [], 1⟩⟩],
              siacoinOutputs := [], minerFees := [],
              transactionSignatures := [] }).1 = some t2 ∧
      ∀ p ∈ (coldAllocate [UnlockConditions.unlockHash ⟨0, [], 1⟩,
              UnlockConditions.unlockHash ⟨1, [], 1⟩] (fun _ => 0)
            { siacoinInputs := [⟨5, ⟨0, [], 1⟩⟩, ⟨7, ⟨1, [], 1⟩⟩],
              siacoinOutputs := [], minerFees := [],
              transactionSignatures := [] }).2,
        ((t2.transactionSignatures)[p.1]?).map TransactionSignature.signature =
          some [p.1 + p.2] :=
  coldSigning_requests_per_slot [UnlockConditions.unlockHash ⟨0, [], 1⟩,
      UnlockConditions.unlockHash ⟨1, [], 1⟩] (fun _ => 0)
    { siacoinInputs := [⟨5, ⟨0, [], 1⟩⟩, ⟨7, ⟨1, [], 1⟩⟩],
      siacoinOutputs := [], minerFees := [], transactionSignatures := [] }
    [(1, 0), (0, 0)] (fun i k => [i + k]) (by decide)

/-- Transaction assembly of the split command (src/main.go lines 499 to
538): when the selection returned no inputs the command errors out with
insufficient funds (none); otherwise the transaction carries the selected
inputs, n outputs of identical value per paying the change address, one
appended change output when change is nonzero, and exactly the selected
fee as its miner-fee list. wallet.DistributeFunds itself lives in
lukechampine.com/us/wallet; the flow is embedded from the point where its
result (ins, fee, change) is known, with the per-input address lookup
abstracted into the given input list. -/
def splitCmdTxn (n : Nat) (per : Nat) (changeAddr : Nat)
    (ins : List SiacoinInput) (fee change : Nat) : Option Transaction :=
  if ins.length = 0 then none
  else some
    { siacoinInputs := ins
      siacoinOutputs :=
        List.replicate n { unlockHash := changeAddr, value := per } ++
          (if change ≠ 0 then [{ unlockHash := changeAddr, value := change }] else [])
      minerFees := [fee]
      transactionSignatures := [] }

/-- C7: every successful split transaction contains exactly n outputs of
identical value per, all paying the single change address, followed by
exactly one additional output holding the change iff change is nonzero,
and its miner-fee list is exactly the single selected fee. -/
theorem splitCmdTxn_shape (n per changeAddr : Nat) (ins : List SiacoinInput)
    (fee change : Nat) (txn : Transaction)
    (h : splitCmdTxn n per changeAddr ins fee change = some txn) :
    txn.siacoinOutputs.take n = List.replicate n ⟨changeAddr, per⟩ ∧
    txn.siacoinOutputs.drop n = (if change ≠ 0 then [⟨changeAddr, change⟩] else []) ∧
    txn.siacoinOutputs.length = n + (if change ≠ 0 then 1 else 0) ∧
    txn.minerFees = [fee] ∧
    txn.siacoinInputs = ins := by
  unfold splitCmdTxn at h
  split at h
  · cases h
  · injection h with h
    subst h
    refine ⟨?_, ?_, ?_, rfl, rfl⟩
    · exact List.take_left' (List.length_replicate ..)
    · exact List.drop_left' (List.length_replicate ..)
    · simp only [List.length_append, List.length_replicate]
      split <;> simp

/-- Closed witness for C7: a concrete successful split with two equal
outputs and a nonzero change output. -/
theorem splitCmdTxn_shape_witness :
    ({ siacoinInputs := [⟨5, ⟨0, [], 1⟩⟩],
       siacoinOutputs := [⟨3, 10⟩, ⟨3, 10⟩, ⟨3, 4⟩],
       minerFees := [7], transactionSignatures := [] } :
        Transaction).siacoinOutputs.take 2 = List.replicate 2 ⟨3, 10⟩ ∧
    ({ siacoinInputs := [⟨5, ⟨0, [], 1⟩⟩],
       siacoinOutputs := [⟨3, 10⟩, ⟨3, 10⟩, ⟨3, 4⟩],
       minerFees := [7], transactionSignatures := [] } :
        Transaction).siacoinOutputs.drop 2 =
      (if (4 : Nat) ≠ 0 then [⟨3, 4⟩] else []) ∧
    ({ siacoinInputs := [⟨5, ⟨0, [], 1⟩⟩],
       siacoinOutputs := [⟨3, 10⟩, ⟨3, 10⟩, ⟨3, 4⟩],
       minerFees := [7], transactionSignatures := [] } :
        Transaction).siacoinOutputs.length = 2 + (if (4 : Nat) ≠ 0 then 1 else 0) ∧
    ({ siacoinInputs := [⟨5, ⟨0, [], 1⟩⟩],
       siacoinOutputs := [⟨3, 10⟩, ⟨3, 10⟩, ⟨3, 4⟩],
       minerFees := [7], transactionSignatures := [] } :
        Transaction).minerFees = [7] ∧
    ({ siacoinInputs := [⟨5, ⟨0, [], 1⟩⟩],
       siacoinOutputs := [⟨3, 10⟩, ⟨3, 10⟩, ⟨3, 4⟩],
       minerFees := [7], transactionSignatures := [] } :
        Transaction).siacoinInputs = [⟨5, ⟨0, [], 1⟩⟩] :=
  splitCmdTxn_shape 2 10 3 [⟨5, ⟨0, [], 1⟩⟩] 7 4
    { siacoinInputs := [⟨5, ⟨0, [], 1⟩⟩],
      siacoinOutputs := [⟨3, 10⟩, ⟨3, 10⟩, ⟨3, 4⟩],
      minerFees := [7], transactionSignatures := [] } (by decide)

/-- Go whitespace characters stripped by strings.TrimSpace (ASCII subset;
the further Unicode spaces do not occur in the inputs considered).
Modelled from the Go standard library, outside this repository. -/
def isSpaceChar (c : Char) : Bool :=
  c = ' ' || c = '\t' || c = '\n' || c = '\r' || c = '\x0b' || c = '\x0c'

/-- strings.TrimSpace: strip leading and trailing whitespace. -/
def trimSpace (s : List Char) : List Char :=
  ((s.dropWhile isSpaceChar).reverse.dropWhile isSpaceChar).reverse

/-- Value of a list of decimal digit characters, most significant first. -/
def chars2Nat (l : List Char) : Nat := l.foldl (fun a c => 10 * a + (c.toNat - 48)) 0

/-- Optional decimal exponent suffix of a float or rational literal: empty,
or e or E followed by an optionally signed nonempty digit string. -/
def parseExpPart : List Char → Option Int
  | [] => some 0
  | c :: r =>
    if c = 'e' || c = 'E' then
      match r with
      | '+' :: d =>
        if !d.isEmpty && d.all Char.isDigit then some (chars2Nat d) else none
      | '-' :: d =>
        if !d.isEmpty && d.all Char.isDigit then some (-(chars2Nat d : Int)) else none
      | d => if !d.isEmpty && d.all Char.isDigit then some (chars2Nat d) else none
    else none

/-- A rational as numerator and denominator, mirroring the unreduced
num/den pair big.Rat exposes; the denominator is positive in every value
built here. -/
structure GoRat where
  num : Int
  den : Nat
deriving DecidableEq, Repr

/-- The rational m times ten to the e, as a GoRat. -/
def goRatScale (m : Nat) (e : Int) : GoRat :=
  if 0 ≤ e then ⟨m * 10 ^ e.toNat, 1⟩ else ⟨m, 10 ^ (-e).toNat⟩

/-- Unsigned decimal mantissa with optional fractional part and optional
decimal exponent; at least one mantissa digit is required. Returns the
denoted rational. -/
def parseDecimalBody (rest : List Char) : Option GoRat :=
  match rest.dropWhile Char.isDigit with
  | '.' :: r2 =>
    if (rest.takeWhile Char.isDigit).length + (r2.takeWhile Char.isDigit).length = 0 then
      none
    else
      match parseExpPart (r2.dropWhile Char.isDigit) with
      | none => none
      | some e =>
        some (goRatScale (chars2Nat (rest.takeWhile Char.isDigit ++ r2.takeWhile Char.isDigit))
          (e - (r2.takeWhile Char.isDigit).length))
  | r1 =>
    if (rest.takeWhile Char.isDigit).isEmpty then none
    else
      match parseExpPart r1 with
      | none => none
      | some e => some (goRatScale (chars2Nat (rest.takeWhile Char.isDigit)) e)

/-- Unsigned body of a big.Rat literal: either a fraction of two nonempty
digit strings with nonzero denominator, or a decimal mantissa with optional
exponent. -/
def parseRatBody (r : List Char) : Option GoRat :=
  if r.contains '/' then
    if !(r.takeWhile (fun c => c ≠ '/')).isEmpty &&
        (r.takeWhile (fun c => c ≠ '/')).all Char.isDigit &&
        !((r.dropWhile (fun c => c ≠ '/')).drop 1).isEmpty &&
        ((r.dropWhile (fun c => c ≠ '/')).drop 1).all Char.isDigit &&
        chars2Nat ((r.dropWhile (fun c => c ≠ '/')).drop 1) != 0 then
      some ⟨chars2Nat (r.takeWhile (fun c => c ≠ '/')),
        chars2Nat ((r.dropWhile (fun c => c ≠ '/')).drop 1)⟩
    else none
  else parseDecimalBody r

/-- Modelled from the Go standard library (math/big Rat.SetString, outside
this repository), restricted to decimal forms: an optional sign, then
either a fraction of digit strings with nonzero denominator or a decimal
mantissa with optional fractional part and decimal exponent; at least one
digit is required. Returns none exactly when Go rejects the string, in
which case the Go method returns a nil pointer. Hex mantissas and
digit-group underscores are omitted; they do not occur in the inputs
considered here. -/
def ratSetString (s : List Char) : Option GoRat :=
  match s with
  | '+' :: r => parseRatBody r
  | '-' :: r => (parseRatBody r).map (fun q => ⟨-q.num, q.den⟩)
  | r => parseRatBody r

/-- Modelled from the Go standard library (strconv.ParseFloat, outside this
repository): true exactly when ParseFloat returns a nil error. ParseFloat
accepts, case-insensitively and behind an optional sign, the special
values inf, infinity and nan, as well as ordinary decimal floats.
Out-of-range exponents (reported by Go as ErrRange) and hex mantissas are
omitted; they do not occur in the inputs considered here. -/
def parseFloatOk (s : List Char) : Bool :=
  (match s with
    | '+' :: r => r
    | '-' :: r => r
    | r => r).map Char.toLower == "inf".data ||
  (match s with
    | '+' :: r => r
    | '-' :: r => r
    | r => r).map Char.toLower == "infinity".data ||
  (match s with
    | '+' :: r => r
    | '-' :: r => r
    | r => r).map Char.toLower == "nan".data ||
  (parseDecimalBody (match s with
    | '+' :: r => r
    | '-' :: r => r
    | r => r)).isSome

/-- Outcome of parseCurrency: a parsed currency value, the fatal
invalid-currency report issued through check, or the nil-pointer panic
inside Currency.MulRat. -/
inductive ParseCurrencyResult where
  | ok (c : Nat)
  | invalidInput
  | panicked
deriving DecidableEq, Repr

/-- Currency scaling performed by parseCurrency on a successful parse:
SiacoinPrecision.MulRat r, that is the floor of precision times the
rational (big.Int division). -/
def currencyMulRat (q : GoRat) : Nat :=
  (((siacoinPrecision : Int) * q.num) / (q.den : Int)).toNat

/-- parseCurrency (src/main.go lines 129 to 136): trim the input and try
big.Rat.SetString; on failure run strconv.ParseFloat purely for its error
and report a fatal invalid-currency error through check when ParseFloat
also fails. When SetString fails but ParseFloat succeeds (for example on
Inf or NaN), the code falls through and calls MulRat on the nil rational
returned by the failed SetString, dereferencing a nil pointer: embedded as
the distinguished panicked result. -/
def parseCurrency (s : List Char) : ParseCurrencyResult :=
  match ratSetString (trimSpace s) with
  | some r => .ok (currencyMulRat r)
  | none =>
    if parseFloatOk (trimSpace s) then .panicked
    else .invalidInput

/-- C8: the claim that parseCurrency either returns a well-defined currency
or reports a terminal invalid-input error fails on the code. The string
Inf is rejected by big.Rat.SetString, which then yields a nil pointer, yet
accepted by strconv.ParseFloat with a nil error, so the check does not
fire and the code falls through into MulRat on the nil rational and
panics. On a string rejected by both parsers the error is reported, and on
a valid number the scaled currency value is returned. -/
theorem parseCurrency_panics_on_Inf :
    parseCurrency ('I' :: 'n' :: 'f' :: []) = .panicked ∧
    parseCurrency ('x' :: []) = .invalidInput ∧
    parseCurrency ('3' :: []) = .ok (3 * siacoinPrecision) := by
  refine ⟨by decide, by decide, by decide⟩

/-- Splits a character list on slashes, mirroring Go strings.Split with a
slash separator: there is always at least one (possibly empty) segment,
and empty segments around consecutive or terminal slashes are kept.
Modelled from the Go standard library, outside this repository. -/
def splitOnSlash : List Char → List (List Char)
  | [] => [[]]
  | c :: rest =>
    if c = '/' then [] :: splitOnSlash rest
    else
      match splitOnSlash rest with
      | [] => [[c]]
      | g :: gs => (c :: g) :: gs

/-- Joins path segments with slashes (Go strings.Join). -/
def joinSlash : List (List Char) → List Char
  | [] => []
  | [g] => g
  | g :: gs => g ++ '/' :: joinSlash gs

/-- Modelled from the spec: a parsed URL (net/url, Go standard library,
outside this repository), split into its path and the remainder
(scheme, host and so on), which u.String() reassembles in front of the
path. -/
structure ParsedURL where
  nonPath : List Char
  path : List Char
deriving DecidableEq, Repr

/-- getDonationAddr (src/main.go lines 154 to 174). The url.Parse result
for the API address is supplied as an Option (none embeds a parse
failure), and httpGet embeds the HTTP GET plus JSON decode of the donation
address (none for any network or decode failure). The result pairs the Go
return value (address, ok) with the list of request URLs actually
fetched. -/
def getDonationAddr (parsed : Option ParsedURL) (httpGet : List Char → Option Nat) :
    (Nat × Bool) × List (List Char) :=
  match parsed with
  | none => ((0, false), [])
  | some u =>
    if (splitOnSlash u.path).length < 2 ∨
        (splitOnSlash u.path)[(splitOnSlash u.path).length - 2]? ≠ some "wallet".data then
      ((0, false), [])
    else
      match httpGet (u.nonPath ++ joinSlash
          ((splitOnSlash u.path).take ((splitOnSlash u.path).length - 2) ++
            ["donations".data])) with
      | none => ((0, false),
          [u.nonPath ++ joinSlash
            ((splitOnSlash u.path).take ((splitOnSlash u.path).length - 2) ++
              ["donations".data])])
      | some a => ((a, true),
          [u.nonPath ++ joinSlash
            ((splitOnSlash u.path).take ((splitOnSlash u.path).length - 2) ++
              ["donations".data])])

/-- C10: donation discovery reports no donation and fetches nothing when
the API address fails to parse or when the second-to-last path segment is
not wallet; every request it does issue goes to the URL obtained by
replacing the trailing wallet segment pair with donations, and a donation
address is reported only when that request succeeds. -/
theorem getDonationAddr_spec (parsed : Option ParsedURL)
    (httpGet : List Char → Option Nat) :
    getDonationAddr none httpGet = ((0, false), []) ∧
    (∀ u, parsed = some u →
      ((splitOnSlash u.path).length < 2 ∨
        (splitOnSlash u.path)[(splitOnSlash u.path).length - 2]? ≠ some "wallet".data) →
      getDonationAddr parsed httpGet = ((0, false), [])) ∧
    (∀ u, parsed = some u →
      ∀ req ∈ (getDonationAddr parsed httpGet).2,
        req = u.nonPath ++ joinSlash
          ((splitOnSlash u.path).take ((splitOnSlash u.path).length - 2) ++
            ["donations".data])) ∧
    (∀ u, parsed = some u → (getDonationAddr parsed httpGet).1.2 = true →
      httpGet (u.nonPath ++ joinSlash
          ((splitOnSlash u.path).take ((splitOnSlash u.path).length - 2) ++
            ["donations".data])) = some (getDonationAddr parsed httpGet).1.1) := by
  refine ⟨rfl, ?_, ?_, ?_⟩
  · intro u hu hbad
    subst hu
    simp only [getDonationAddr]
    rw [if_pos hbad]
  · intro u hu req hreq
    subst hu
    simp only [getDonationAddr] at hreq
    split at hreq
    · cases hreq
    · split at hreq <;> simp only [List.mem_singleton] at hreq <;> exact hreq
  · intro u hu hok
    subst hu
    simp only [getDonationAddr] at hok ⊢
    split at hok
    · cases hok
    · rename_i hcond
      split at hok
      · cases hok
      · rename_i a ha
        rw [if_neg hcond, ha]

/-- Closed witness for C10: a parse failure fetches nothing; a wallet path
yields exactly one fetch of the donations URL and its address. -/
theorem getDonationAddr_spec_witness :
    getDonationAddr none (fun _ => some 9) = ((0, false), []) ∧
    getDonationAddr (some ⟨"http://host".data, "/api/x".data⟩) (fun _ => some 9) =
      ((0, false), []) ∧
    (fun (_ : List Char) => some 9)
        (("http://host".data : List Char) ++ joinSlash
          ((splitOnSlash ("/wallet/x".data : List Char)).take
            ((splitOnSlash ("/wallet/x".data : List Char)).length - 2) ++
            ["donations".data])) =
      some (getDonationAddr (some ⟨"http://host".data, "/wallet/x".data⟩)
        (fun _ => some 9)).1.1 :=
  ⟨(getDonationAddr_spec none (fun _ => some 9)).1,
   (getDonationAddr_spec (some ⟨"http://host".data, "/api/x".data⟩)
      (fun _ => some 9)).2.1 ⟨"http://host".data, "/api/x".data⟩ rfl (by decide),
   (getDonationAddr_spec (some ⟨"http://host".data, "/wallet/x".data⟩)
      (fun _ => some 9)).2.2.2 ⟨"http://host".data, "/wallet/x".data⟩ rfl (by decide)⟩

/-- Decimal digit character for a digit value. -/
def digitChar (d : Nat) : Char := Char.ofNat (48 + d)

/-- Fuelled decimal printer, most significant digit first. -/
def natToCharsAux : Nat → Nat → List Char
  | 0, _ => []
  | fuel + 1, n =>
    if n = 0 then []
    else natToCharsAux fuel (n / 10) ++ [digitChar (n % 10)]

/-- Decimal representation of a natural number as characters. -/
def natToChars (n : Nat) : List Char :=
  if n = 0 then ['0'] else natToCharsAux (n + 1) n

/-- Parses a nonempty leading run of decimal digits into its value and the
unread remainder. -/
def parseNatChars (s : List Char) : Option (Nat × List Char) :=
  if (s.takeWhile Char.isDigit).isEmpty then none
  else some (chars2Nat (s.takeWhile Char.isDigit), s.dropWhile Char.isDigit)

/-- Consumes an expected literal prefix, returning the remainder. -/
def expectChars (lit s : List Char) : Option (List Char) :=
  if lit.isPrefixOf s then some (s.drop lit.length) else none

/-- Comma-space separated items, closing bracket included. -/
def printListAux {α : Type} (pr : α → List Char) : List α → List Char
  | [] => [']']
  | [a] => pr a ++ [']']
  | a :: b :: rest => pr a ++ ',' :: ' ' :: printListAux pr (b :: rest)

/-- Bracketed comma-space separated list. -/
def printList {α : Type} (pr : α → List Char) (l : List α) : List Char :=
  '[' :: printListAux pr l

/-- Parses one or more comma-space separated items up to the closing
bracket; the fuel bounds the number of items. -/
def parseListAux {α : Type} (p : List Char → Option (α × List Char)) :
    Nat → List Char → Option (List α × List Char)
  | 0, _ => none
  | fuel + 1, s =>
    match p s with
    | none => none
    | some (a, s1) =>
      match s1 with
      | ',' :: ' ' :: s2 =>
        match parseListAux p fuel s2 with
        | none => none
        | some (l, s3) => some (a :: l, s3)
      | ']' :: s2 => some ([a], s2)
      | _ => none

/-- Parses a bracketed comma-space separated list. -/
def parseList {α : Type} (p : List Char → Option (α × List Char)) (fuel : Nat) :
    List Char → Option (List α × List Char)
  | '[' :: s1 =>
    match s1 with
    | ']' :: s2 => some ([], s2)
    | _ => parseListAux p fuel s1
  | _ => none

theorem digitChar_toNat : ∀ d, d < 10 → (digitChar d).toNat = 48 + d := by decide

theorem digitChar_isDigit : ∀ d, d < 10 → (digitChar d).isDigit = true := by decide

theorem chars2Nat_append_single (l : List Char) (c : Char) :
    chars2Nat (l ++ [c]) = 10 * chars2Nat l + (c.toNat - 48) := by
  simp [chars2Nat, List.foldl_append]

theorem natToCharsAux_spec :
    ∀ (fuel n : Nat), n ≤ fuel →
      chars2Nat (natToCharsAux fuel n) = n ∧
      ∀ c ∈ natToCharsAux fuel n, c.isDigit = true := by
  intro fuel
  induction fuel with
  | zero =>
    intro n hn
    interval_cases n
    exact ⟨rfl, by intro c hc; cases hc⟩
  | succ f ih =>
    intro n hn
    by_cases h0 : n = 0
    · subst h0
      refine ⟨rfl, ?_⟩
      intro c hc
      simp [natToCharsAux] at hc
    · have hlt : n / 10 < n := Nat.div_lt_self (Nat.pos_of_ne_zero h0) (by norm_num)
      have hdiv : n / 10 ≤ f := by omega
      obtain ⟨ihv, ihd⟩ := ih (n / 10) hdiv
      have hm : n % 10 < 10 := Nat.mod_lt _ (by norm_num)
      constructor
      · simp only [natToCharsAux, if_neg h0]
        rw [chars2Nat_append_single, ihv, digitChar_toNat (n % 10) hm]
        omega
      · simp only [natToCharsAux, if_neg h0]
        intro c hc
        rcases List.mem_append.mp hc with h | h
        · exact ihd c h
        · simp only [List.mem_singleton] at h
          subst h
          exact digitChar_isDigit _ hm

theorem natToChars_spec (n : Nat) :
    chars2Nat (natToChars n) = n ∧ (∀ c ∈ natToChars n, c.isDigit = true) ∧
      natToChars n ≠ [] := by
  by_cases h0 : n = 0
  · subst h0; refine ⟨rfl, ?_, by simp [natToChars]⟩
    intro c hc
    simp [natToChars] at hc
    subst hc
    decide
  · obtain ⟨hv, hd⟩ := natToCharsAux_spec (n + 1) n (by omega)
    refine ⟨?_, ?_, ?_⟩
    · simp only [natToChars, if_neg h0]; exact hv
    · simp only [natToChars, if_neg h0]; exact hd
    · simp [natToChars, if_neg h0, natToCharsAux]

theorem takeWhile_append_all {p : Char → Bool} :
    ∀ (l rest : List Char), (∀ c ∈ l, p c = true) →
      (∀ c, rest.head? = some c → p c = false) →
      (l ++ rest).takeWhile p = l ∧ (l ++ rest).dropWhile p = rest := by
  intro l
  induction l with
  | nil =>
    intro rest _ h2
    cases rest with
    | nil => exact ⟨rfl, rfl⟩
    | cons c r =>
      simp only [List.nil_append]
      constructor
      · simp [List.takeWhile_cons, h2 c rfl]
      · simp [List.dropWhile_cons, h2 c rfl]
  | cons x xs ih =>
    intro rest h1 h2
    obtain ⟨iht, ihd⟩ := ih rest (fun c hc => h1 c (by simp [hc])) h2
    constructor
    · simp [List.takeWhile_cons, h1 x (by simp), iht]
    · simp [List.dropWhile_cons, h1 x (by simp), ihd]

theorem parseNatChars_natToChars (n : Nat) (rest : List Char)
    (h : ∀ c, rest.head? = some c → c.isDigit = false) :
    parseNatChars (natToChars n ++ rest) = some (n, rest) := by
  obtain ⟨hv, hd, hne⟩ := natToChars_spec n
  obtain ⟨ht, hdrop⟩ := takeWhile_append_all (natToChars n) rest hd h
  simp only [parseNatChars, ht, hdrop, hv]
  rw [if_neg (by simpa [List.isEmpty_iff] using hne)]

theorem expectChars_append (lit rest : List Char) :
    expectChars lit (lit ++ rest) = some rest := by
  have hpre : lit.isPrefixOf (lit ++ rest) = true := by
    induction lit with
    | nil => cases rest <;> rfl
    | cons c cs ih => simp [List.isPrefixOf, ih]
  simp [expectChars, hpre, List.drop_left]

theorem expectChars_cons_cons (c : Char) (t s : List Char) :
    expectChars (c :: t) (c :: s) = expectChars t s := by
  simp [expectChars, List.isPrefixOf]

theorem expectChars_nil (s : List Char) : expectChars [] s = some s := by
  cases s <;> rfl

theorem head_not_digit_of_head (c0 : Char) (x : List Char) (hd : c0.isDigit = false) :
    ∀ c, (c0 :: x).head? = some c → c.isDigit = false := by
  intro c hc
  simp only [List.head?_cons, Option.some.injEq] at hc
  rw [← hc]
  exact hd

theorem parseNatChars_cons_comma (n : Nat) (x : List Char) :
    parseNatChars (natToChars n ++ (',' :: x)) = some (n, ',' :: x) :=
  parseNatChars_natToChars n (',' :: x) (head_not_digit_of_head ',' x (by decide))

theorem parseNatChars_cons_rbracket (n : Nat) (x : List Char) :
    parseNatChars (natToChars n ++ (']' :: x)) = some (n, ']' :: x) :=
  parseNatChars_natToChars n (']' :: x) (head_not_digit_of_head ']' x (by decide))

theorem parseNatChars_cons_rbrace (n : Nat) (x : List Char) :
    parseNatChars (natToChars n ++ ('\x7d' :: x)) = some (n, '\x7d' :: x) :=
  parseNatChars_natToChars n ('\x7d' :: x) (head_not_digit_of_head '\x7d' x (by decide))

theorem parseNatChars_cons_newline (n : Nat) (x : List Char) :
    parseNatChars (natToChars n ++ ('\n' :: x)) = some (n, '\n' :: x) :=
  parseNatChars_natToChars n ('\n' :: x) (head_not_digit_of_head '\n' x (by decide))

theorem parseListAux_rt {α : Type} (p : List Char → Option (α × List Char))
    (pr : α → List Char) :
    ∀ (l : List α) (a : α) (fuel : Nat) (rest : List Char),
      (∀ b ∈ a :: l, ∀ (c : Char) (cs : List Char), (c = ',' ∨ c = ']') →
        p (pr b ++ (c :: cs)) = some (b, c :: cs)) →
      l.length < fuel →
      parseListAux p fuel (printListAux pr (a :: l) ++ rest) = some (a :: l, rest) := by
  intro l
  induction l with
  | nil =>
    intro a fuel rest hItem hfuel
    cases fuel with
    | zero => omega
    | succ f =>
      have := hItem a (by simp) ']' rest (Or.inr rfl)
      simp only [printListAux]
      rw [List.append_assoc]
      simp only [List.singleton_append]
      simp [parseListAux, this]
  | cons b l2 ih =>
    intro a fuel rest hItem hfuel
    cases fuel with
    | zero => omega
    | succ f =>
      have hpa := hItem a (by simp) ',' (' ' :: (printListAux pr (b :: l2) ++ rest)) (Or.inl rfl)
      have hrec := ih b f rest (fun x hx => hItem x (by simp at hx ⊢; tauto)) (by simp at hfuel; omega)
      simp only [printListAux]
      rw [List.append_assoc]
      simp only [List.cons_append]
      simp [parseListAux, hpa, hrec]

theorem parseList_cons_eq {α : Type} (p : List Char → Option (α × List Char)) (fuel : Nat)
    (s1 : List Char) :
    parseList p fuel ('[' :: s1) =
      match s1 with
      | ']' :: s2 => some ([], s2)
      | _ => parseListAux p fuel s1 := rfl

theorem parseList_rt {α : Type} (p : List Char → Option (α × List Char))
    (pr : α → List Char) (l : List α) (fuel : Nat) (rest : List Char)
    (hItem : ∀ b ∈ l, ∀ (c : Char) (cs : List Char), (c = ',' ∨ c = ']') →
      p (pr b ++ (c :: cs)) = some (b, c :: cs))
    (hStart : ∀ b ∈ l, ∃ c cs, pr b = c :: cs ∧ c ≠ ']')
    (hfuel : l.length ≤ fuel) :
    parseList p fuel (printList pr l ++ rest) = some (l, rest) := by
  cases l with
  | nil => rfl
  | cons a l2 =>
    obtain ⟨c, cs, hpr, hc⟩ := hStart a (by simp)
    have haux := parseListAux_rt p pr l2 a fuel rest hItem (by simp at hfuel; omega)
    have hshape : printListAux pr (a :: l2) ++ rest =
        c :: (match l2 with
          | [] => cs ++ (']' :: rest)
          | x :: xs => cs ++ (',' :: ' ' :: (printListAux pr (x :: xs) ++ rest))) := by
      cases l2 with
      | nil => simp [printListAux, hpr]
      | cons x xs => simp [printListAux, hpr]
    simp only [printList, List.cons_append]
    rw [parseList_cons_eq, hshape]
    rw [hshape] at haux
    split
    · rename_i s2 heq
      rw [List.cons.injEq] at heq
      exact absurd heq.1 hc
    · exact haux

theorem natItem_rt : ∀ (b : Nat), ∀ (c : Char) (cs : List Char), (c = ',' ∨ c = ']') →
    parseNatChars (natToChars b ++ (c :: cs)) = some (b, c :: cs) := by
  intro b c cs h
  rcases h with h | h <;> subst h
  · exact parseNatChars_cons_comma b cs
  · exact parseNatChars_cons_rbracket b cs

theorem natToChars_start (b : Nat) : ∃ c cs, natToChars b = c :: cs ∧ c ≠ ']' := by
  obtain ⟨_, hd, hne⟩ := natToChars_spec b
  cases hb : natToChars b with
  | nil => exact absurd hb hne
  | cons c cs =>
    refine ⟨c, cs, rfl, ?_⟩
    intro hceq
    subst hceq
    have := hd ']' (by rw [hb]; simp)
    simp at this

/-- Literal fragments of the persisted document. The document is the
pretty-printed structured serialization of a transaction draft described in
spec section 6: an object with the four draft fields, each on its own
indented line. -/
def ucOpen : List Char := '\x7b' :: "\"timelock\": ".data

def ucSep1 : List Char := ',' :: " \"publicKeys\": ".data

def ucSep2 : List Char := ',' :: " \"signaturesRequired\": ".data

def ucClose : List Char := '\x7d' :: []

def inOpen : List Char := '\x7b' :: "\"parentID\": ".data

def inSep : List Char := ',' :: " \"unlockConditions\": ".data

def inClose : List Char := '\x7d' :: []

def outOpen : List Char := '\x7b' :: "\"unlockHash\": ".data

def outSep : List Char := ',' :: " \"value\": ".data

def outClose : List Char := '\x7d' :: []

def sigOpen : List Char := '\x7b' :: "\"parentID\": ".data

def sigSep1 : List Char := ',' :: " \"publicKeyIndex\": ".data

def sigSep2 : List Char := ',' :: " \"signature\": ".data

def sigClose : List Char := '\x7d' :: []

def txnOpen : List Char := '\x7b' :: "\n  \"siacoinInputs\": ".data

def txnSep1 : List Char := ',' :: "\n  \"siacoinOutputs\": ".data

def txnSep2 : List Char := ',' :: "\n  \"minerFees\": ".data

def txnSep3 : List Char := ',' :: "\n  \"transactionSignatures\": ".data

def txnClose : List Char := '\n' :: '\x7d' :: []

/-- Serialization of unlock conditions. -/
def printUC (uc : UnlockConditions) : List Char :=
  ucOpen ++ (natToChars uc.timelock ++ (ucSep1 ++ (printList natToChars uc.publicKeys ++
    (ucSep2 ++ (natToChars uc.signaturesRequired ++ ucClose)))))

/-- Parser for unlock conditions. -/
def parseUC (fuel : Nat) (s : List Char) : Option (UnlockConditions × List Char) :=
  (expectChars ucOpen s).bind fun s1 =>
  (parseNatChars s1).bind fun p =>
  (expectChars ucSep1 p.2).bind fun s2 =>
  (parseList parseNatChars fuel s2).bind fun q =>
  (expectChars ucSep2 q.2).bind fun s3 =>
  (parseNatChars s3).bind fun r =>
  (expectChars ucClose r.2).map fun s4 =>
  (⟨p.1, q.1, r.1⟩, s4)

/-- Serialization of an input: parent identifier plus unlock conditions. -/
def printInput (i : SiacoinInput) : List Char :=
  inOpen ++ (natToChars i.parentID ++ (inSep ++ (printUC i.unlockConditions ++ inClose)))

/-- Parser for an input. -/
def parseInput (fuel : Nat) (s : List Char) : Option (SiacoinInput × List Char) :=
  (expectChars inOpen s).bind fun s1 =>
  (parseNatChars s1).bind fun p =>
  (expectChars inSep p.2).bind fun s2 =>
  (parseUC fuel s2).bind fun q =>
  (expectChars inClose q.2).map fun s3 =>
  (⟨p.1, q.1⟩, s3)

/-- Serialization of an output: address plus value. -/
def printOutput (o : SiacoinOutput) : List Char :=
  outOpen ++ (natToChars o.unlockHash ++ (outSep ++ (natToChars o.value ++ outClose)))

/-- Parser for an output. -/
def parseOutput (s : List Char) : Option (SiacoinOutput × List Char) :=
  (expectChars outOpen s).bind fun s1 =>
  (parseNatChars s1).bind fun p =>
  (expectChars outSep p.2).bind fun s2 =>
  (parseNatChars s2).bind fun q =>
  (expectChars outClose q.2).map fun s3 =>
  (⟨p.1, q.1⟩, s3)

/-- Serialization of a signature slot. -/
def printSig (g : TransactionSignature) : List Char :=
  sigOpen ++ (natToChars g.parentID ++ (sigSep1 ++ (natToChars g.publicKeyIndex ++
    (sigSep2 ++ (printList natToChars g.signature ++ sigClose)))))

/-- Parser for a signature slot. -/
def parseSig (fuel : Nat) (s : List Char) : Option (TransactionSignature × List Char) :=
  (expectChars sigOpen s).bind fun s1 =>
  (parseNatChars s1).bind fun p =>
  (expectChars sigSep1 p.2).bind fun s2 =>
  (parseNatChars s2).bind fun q =>
  (expectChars sigSep2 q.2).bind fun s3 =>
  (parseList parseNatChars fuel s3).bind fun r =>
  (expectChars sigClose r.2).map fun s4 =>
  (⟨p.1, q.1, r.1⟩, s4)

theorem parseOutput_rt (o : SiacoinOutput) (rest : List Char) :
    parseOutput (printOutput o ++ rest) = some (o, rest) := by
  obtain ⟨uh, v⟩ := o
  simp only [printOutput, parseOutput, outOpen, outSep, outClose,
    List.append_assoc, List.cons_append, List.nil_append,
    expectChars_cons_cons, expectChars_nil, Option.some_bind,
    parseNatChars_cons_comma, parseNatChars_cons_rbrace, Option.map_some']

theorem parseUC_rt (uc : UnlockConditions) (fuel : Nat) (rest : List Char)
    (hfuel : uc.publicKeys.length ≤ fuel) :
    parseUC fuel (printUC uc ++ rest) = some (uc, rest) := by
  obtain ⟨tl, pks, sr⟩ := uc
  have hlist := parseList_rt parseNatChars natToChars pks fuel
    (ucSep2 ++ (natToChars sr ++ ucClose ++ rest))
    (fun b _ => natItem_rt b) (fun b _ => natToChars_start b) hfuel
  simp only [ucSep2, ucClose, List.append_assoc, List.cons_append, List.nil_append] at hlist
  simp only [printUC, parseUC, ucOpen, ucSep1, ucSep2, ucClose,
    List.append_assoc, List.cons_append, List.nil_append,
    expectChars_cons_cons, expectChars_nil, Option.some_bind,
    parseNatChars_cons_comma, parseNatChars_cons_rbrace, hlist, Option.map_some']

theorem parseInput_rt (i : SiacoinInput) (fuel : Nat) (rest : List Char)
    (hfuel : i.unlockConditions.publicKeys.length ≤ fuel) :
    parseInput fuel (printInput i ++ rest) = some (i, rest) := by
  obtain ⟨pid, uc⟩ := i
  have huc := parseUC_rt uc fuel (inClose ++ rest) hfuel
  simp only [inClose, List.cons_append, List.nil_append] at huc
  simp only [printInput, parseInput, inOpen, inSep, inClose,
    List.append_assoc, List.cons_append, List.nil_append,
    expectChars_cons_cons, expectChars_nil, Option.some_bind,
    parseNatChars_cons_comma, huc, Option.map_some']

theorem parseSig_rt (g : TransactionSignature) (fuel : Nat) (rest : List Char)
    (hfuel : g.signature.length ≤ fuel) :
    parseSig fuel (printSig g ++ rest) = some (g, rest) := by
  obtain ⟨pid, pki, sig⟩ := g
  have hlist := parseList_rt parseNatChars natToChars sig fuel (sigClose ++ rest)
    (fun b _ => natItem_rt b) (fun b _ => natToChars_start b) hfuel
  simp only [sigClose, List.cons_append, List.nil_append] at hlist
  simp only [printSig, parseSig, sigOpen, sigSep1, sigSep2, sigClose,
    List.append_assoc, List.cons_append, List.nil_append,
    expectChars_cons_cons, expectChars_nil, Option.some_bind,
    parseNatChars_cons_comma, hlist, Option.map_some']

/-- Modelled from the spec: the persisted transaction document of spec
section 6 (json.MarshalIndent of the draft in the Go code, which lives in
the standard library outside this repository): a structured, pretty-printed
object carrying inputs (parent id plus unlock conditions), outputs
(address plus value), miner fees, and signatures. -/
def printTxn (t : Transaction) : List Char :=
  txnOpen ++ (printList printInput t.siacoinInputs ++ (txnSep1 ++
    (printList printOutput t.siacoinOutputs ++ (txnSep2 ++
      (printList natToChars t.minerFees ++ (txnSep3 ++
        (printList printSig t.transactionSignatures ++ txnClose)))))))

/-- Modelled from the spec: the reader of the persisted document
(json.Unmarshal in the Go code, standard library, outside this
repository). -/
def parseTxn (fuel : Nat) (s : List Char) : Option (Transaction × List Char) :=
  (expectChars txnOpen s).bind fun s1 =>
  (parseList (parseInput fuel) fuel s1).bind fun pIns =>
  (expectChars txnSep1 pIns.2).bind fun s2 =>
  (parseList parseOutput fuel s2).bind fun pOuts =>
  (expectChars txnSep2 pOuts.2).bind fun s3 =>
  (parseList parseNatChars fuel s3).bind fun pFees =>
  (expectChars txnSep3 pFees.2).bind fun s4 =>
  (parseList (parseSig fuel) fuel s4).bind fun pSigs =>
  (expectChars txnClose pSigs.2).map fun s5 =>
  (⟨pIns.1, pOuts.1, pFees.1, pSigs.1⟩, s5)

/-- writeTxn (src/main.go lines 147 to 152): the document is written whole,
with a terminating newline appended. -/
def writeTxn (t : Transaction) : List Char := printTxn t ++ ['\n']

/-- readTxn (src/main.go lines 138 to 145): read the whole file and decode
the document. -/
def readTxn (s : List Char) : Option Transaction :=
  (parseTxn s.length s).bind fun p => if p.2 = ['\n'] then some p.1 else none

theorem printInput_start (b : SiacoinInput) :
    ∃ c cs, printInput b = c :: cs ∧ c ≠ ']' :=
  ⟨'\x7b', _, rfl, by decide⟩

theorem printOutput_start (b : SiacoinOutput) :
    ∃ c cs, printOutput b = c :: cs ∧ c ≠ ']' :=
  ⟨'\x7b', _, rfl, by decide⟩

theorem printSig_start (b : TransactionSignature) :
    ∃ c cs, printSig b = c :: cs ∧ c ≠ ']' :=
  ⟨'\x7b', _, rfl, by decide⟩

theorem parseTxn_rt (t : Transaction) (fuel : Nat) (rest : List Char)
    (h1 : t.siacoinInputs.length ≤ fuel)
    (h2 : ∀ i ∈ t.siacoinInputs, i.unlockConditions.publicKeys.length ≤ fuel)
    (h3 : t.siacoinOutputs.length ≤ fuel)
    (h4 : t.minerFees.length ≤ fuel)
    (h5 : t.transactionSignatures.length ≤ fuel)
    (h6 : ∀ g ∈ t.transactionSignatures, g.signature.length ≤ fuel) :
    parseTxn fuel (printTxn t ++ rest) = some (t, rest) := by
  obtain ⟨ins, outs, fees, sigs⟩ := t
  simp only at h1 h2 h3 h4 h5 h6
  have hSigs := parseList_rt (parseSig fuel) printSig sigs fuel (txnClose ++ rest)
    (fun b hb c cs _ => parseSig_rt b fuel (c :: cs) (h6 b hb))
    (fun b _ => printSig_start b) h5
  simp only [txnClose, List.append_assoc, List.cons_append, List.nil_append] at hSigs
  have hFees := parseList_rt parseNatChars natToChars fees fuel
    (txnSep3 ++ (printList printSig sigs ++ ('\n' :: '\x7d' :: rest)))
    (fun b _ => natItem_rt b) (fun b _ => natToChars_start b) h4
  simp only [txnSep3, List.append_assoc, List.cons_append, List.nil_append] at hFees
  have hOuts := parseList_rt parseOutput printOutput outs fuel
    (txnSep2 ++ (printList natToChars fees ++ (txnSep3 ++ (printList printSig sigs ++
      ('\n' :: '\x7d' :: rest)))))
    (fun b _ c cs _ => parseOutput_rt b (c :: cs))
    (fun b _ => printOutput_start b) h3
  simp only [txnSep2, txnSep3, List.append_assoc, List.cons_append, List.nil_append] at hOuts
  have hIns := parseList_rt (parseInput fuel) printInput ins fuel
    (txnSep1 ++ (printList printOutput outs ++ (txnSep2 ++ (printList natToChars fees ++
      (txnSep3 ++ (printList printSig sigs ++ ('\n' :: '\x7d' :: rest)))))))
    (fun b hb c cs _ => parseInput_rt b fuel (c :: cs) (h2 b hb))
    (fun b _ => printInput_start b) h1
  simp only [txnSep1, txnSep2, txnSep3, List.append_assoc, List.cons_append,
    List.nil_append] at hIns
  simp only [printTxn, parseTxn, txnOpen, txnSep1, txnSep2, txnSep3, txnClose,
    List.append_assoc, List.cons_append, List.nil_append,
    expectChars_cons_cons, expectChars_nil, Option.some_bind,
    hIns, hOuts, hFees, hSigs, Option.map_some']

theorem natToChars_length_pos (n : Nat) : 1 ≤ (natToChars n).length := by
  obtain ⟨_, _, hne⟩ := natToChars_spec n
  cases h : natToChars n with
  | nil => exact absurd h hne
  | cons c cs => simp

theorem printListAux_length {α : Type} (pr : α → List Char) :
    ∀ l : List α, (∀ a ∈ l, 1 ≤ (pr a).length) →
      l.length + 1 ≤ (printListAux pr l).length := by
  intro l
  induction l with
  | nil => intro _; simp [printListAux]
  | cons a tail ih =>
    intro hpos
    cases tail with
    | nil =>
      have := hpos a (by simp)
      simp [printListAux]
      omega
    | cons b r =>
      have ha := hpos a (by simp)
      have := ih (fun x hx => hpos x (by simp at hx ⊢; tauto))
      simp only [printListAux, List.length_append, List.length_cons] at this ⊢
      omega

theorem printListAux_length_mem {α : Type} (pr : α → List Char) :
    ∀ l : List α, ∀ a ∈ l, (pr a).length ≤ (printListAux pr l).length := by
  intro l
  induction l with
  | nil => intro a ha; cases ha
  | cons x tail ih =>
    intro a ha
    rcases List.mem_cons.mp ha with h | h
    · subst h
      cases tail with
      | nil => simp [printListAux]
      | cons b r => simp [printListAux]
    · have htail := ih a h
      cases tail with
      | nil => cases h
      | cons b r =>
        simp only [printListAux, List.length_append, List.length_cons] at htail ⊢
        omega

theorem printList_length {α : Type} (pr : α → List Char) (l : List α)
    (hpos : ∀ a ∈ l, 1 ≤ (pr a).length) :
    l.length + 2 ≤ (printList pr l).length := by
  have := printListAux_length pr l hpos
  simp only [printList, List.length_cons]
  omega

theorem printInput_length_pos (b : SiacoinInput) : 1 ≤ (printInput b).length := by
  obtain ⟨c, cs, h, _⟩ := printInput_start b
  simp [h]

theorem printOutput_length_pos (b : SiacoinOutput) : 1 ≤ (printOutput b).length := by
  obtain ⟨c, cs, h, _⟩ := printOutput_start b
  simp [h]

theorem printSig_length_pos (b : TransactionSignature) : 1 ≤ (printSig b).length := by
  obtain ⟨c, cs, h, _⟩ := printSig_start b
  simp [h]

theorem printUC_length_ge (uc : UnlockConditions) :
    uc.publicKeys.length ≤ (printUC uc).length := by
  have := printList_length natToChars uc.publicKeys (fun a _ => natToChars_length_pos a)
  simp only [printUC, List.length_append]
  omega

theorem printInput_length_ge (i : SiacoinInput) :
    i.unlockConditions.publicKeys.length ≤ (printInput i).length := by
  have := printUC_length_ge i.unlockConditions
  simp only [printInput, List.length_append]
  omega

theorem printSig_length_ge (g : TransactionSignature) :
    g.signature.length ≤ (printSig g).length := by
  have := printList_length natToChars g.signature (fun a _ => natToChars_length_pos a)
  simp only [printSig, List.length_append]
  omega

/-- C9: writing a transaction draft to the persisted on-disk document and
reading it back yields the identical draft: inputs, outputs, miner fees and
signatures are recovered field for field. The persisted form is the whole
pretty-printed document terminated by a newline. -/
theorem writeTxn_readTxn_roundtrip (t : Transaction) :
    readTxn (writeTxn t) = some t ∧
    writeTxn t = printTxn t ++ ['\n'] ∧
    (writeTxn t).getLast? = some '\n' := by
  obtain ⟨ins, outs, fees, sigs⟩ := t
  refine ⟨?_, rfl, by simp [writeTxn]⟩
  have fuelEq : (writeTxn ⟨ins, outs, fees, sigs⟩).length =
      (printTxn ⟨ins, outs, fees, sigs⟩).length + 1 := by
    simp [writeTxn]
  have hlenIns : ins.length ≤ (printTxn ⟨ins, outs, fees, sigs⟩).length := by
    have := printList_length printInput ins (fun a _ => printInput_length_pos a)
    simp only [printTxn, List.length_append]
    omega
  have hlenOuts : outs.length ≤ (printTxn ⟨ins, outs, fees, sigs⟩).length := by
    have := printList_length printOutput outs (fun a _ => printOutput_length_pos a)
    simp only [printTxn, List.length_append]
    omega
  have hlenFees : fees.length ≤ (printTxn ⟨ins, outs, fees, sigs⟩).length := by
    have := printList_length natToChars fees (fun a _ => natToChars_length_pos a)
    simp only [printTxn, List.length_append]
    omega
  have hlenSigs : sigs.length ≤ (printTxn ⟨ins, outs, fees, sigs⟩).length := by
    have := printList_length printSig sigs (fun a _ => printSig_length_pos a)
    simp only [printTxn, List.length_append]
    omega
  have hlenInsMem : ∀ i ∈ ins, i.unlockConditions.publicKeys.length ≤
      (printTxn ⟨ins, outs, fees, sigs⟩).length := by
    intro i hi
    have hmem := printListAux_length_mem printInput ins i hi
    have hge := printInput_length_ge i
    simp only [printTxn, List.length_append, printList, List.length_cons]
    omega
  have hlenSigsMem : ∀ g ∈ sigs, g.signature.length ≤
      (printTxn ⟨ins, outs, fees, sigs⟩).length := by
    intro g hg
    have hmem := printListAux_length_mem printSig sigs g hg
    have hge := printSig_length_ge g
    simp only [printTxn, List.length_append, printList, List.length_cons]
    omega
  have hparse := parseTxn_rt ⟨ins, outs, fees, sigs⟩
    ((writeTxn ⟨ins, outs, fees, sigs⟩).length) ['\n']
    (by show ins.length ≤ _; rw [fuelEq]; omega)
    (by rw [fuelEq]; intro i hi; have := hlenInsMem i hi; omega)
    (by show outs.length ≤ _; rw [fuelEq]; omega)
    (by show fees.length ≤ _; rw [fuelEq]; omega)
    (by show sigs.length ≤ _; rw [fuelEq]; omega)
    (by rw [fuelEq]; intro g hg; have := hlenSigsMem g hg; omega)
  show (parseTxn (writeTxn ⟨ins, outs, fees, sigs⟩).length
      (printTxn ⟨ins, outs, fees, sigs⟩ ++ ['\n'])).bind _ = _
  rw [hparse]
  simp

end WalrusCLI
